import Mathlib

/-!
Verification of the semver-taggr core: a shallow embedding of the tag
parsing, bumping and formatting logic of `src/main.rs` (identical copies of
the functions live in `src/functions.rs`), together with proofs of the
specified properties.

Modelling notes on the regex `(.*)(\d+)\.(\d+)\.(\d+)(.*)` (SEMVER_REGEX,
main.rs:12), used by `split_tag_semver` through the Rust `regex` crate:
the crate implements leftmost-first (Perl-like) match semantics.  Since
both `(.*)` groups match the empty string, a match, when one exists,
starts at offset 0 and ends at the end of the string; the first greedy
`(.*)` then absorbs the longest prefix that still lets the remainder
match, and each greedy `(\d+)` absorbs a maximal digit run (giving back a
digit can never help, because the following literal `.` is not a digit).
The embedding (`greedySplit` over `matchSuffix`) computes exactly that
match.  Two deliberate simplifications, which affect no input the program
can see (git forbids control characters in reference names, and version
tags use ASCII digits): `.` is modelled as matching every character,
whereas the crate's `.` does not match a newline, and `\d` is modelled as
the ASCII digits `0`-`9` (`Char.isDigit`), whereas the crate's `\d` is
Unicode-aware; `str::parse::<u32>` accepts only ASCII digits in any case.
The round-trip theorems below carry explicit newline-freeness hypotheses
so that they claim nothing outside the region where the model and the
crate agree.
-/

namespace SemverTaggr

/-- The pattern from main.rs:12. Kept for reference; the functions below
embed its leftmost-first greedy semantics directly. -/
def SEMVER_REGEX : String := "(.*)(\\d+)\\.(\\d+)\\.(\\d+)(.*)"

/-- Numeric value of a decimal digit character. -/
def charVal (c : Char) : Nat := c.toNat - 48

/-- Value of a list of decimal digit characters, most significant first,
exactly as `str::parse::<u32>` accumulates it. -/
def digitsVal (l : List Char) : Nat := l.foldl (fun a c => 10 * a + charVal c) 0

/-- One more than `u32::MAX`. -/
def U32 : Nat := 4294967296

/-- Rust `str::parse::<u32>` on a nonempty all-digit capture: succeeds
with the decimal value unless it exceeds `u32::MAX` (main.rs:97-99 calls
`.unwrap()` on this, so a `none` here is a panic in the program). -/
def parse_u32 (l : List Char) : Option Nat :=
  if digitsVal l < U32 then some (digitsVal l) else none

/-- Head of the list is a decimal digit. -/
def headDigit : List Char → Bool
  | [] => false
  | c :: _ => c.isDigit

/-- List starts with a literal dot immediately followed by a digit. -/
def headDotDigit : List Char → Bool
  | '.' :: c :: _ => c.isDigit
  | _ => false

/-- Match of the regex tail `(\d+)\.(\d+)\.(\d+)(.*)` anchored at the
start of `l` and reaching the end of `l`: each greedy `(\d+)` takes a
maximal digit run (shrinking it can never help, the following literal
dot is not a digit) and the final `(.*)` takes the rest.  Returns the
three digit groups and the remaining suffix. -/
def matchSuffix (l : List Char) : Option (List Char × List Char × List Char × List Char) :=
  if l.takeWhile Char.isDigit = [] then none
  else match l.dropWhile Char.isDigit with
    | x1 :: t1 =>
      if x1 = '.' then
        if t1.takeWhile Char.isDigit = [] then none
        else match t1.dropWhile Char.isDigit with
          | x2 :: t2 =>
            if x2 = '.' then
              if t2.takeWhile Char.isDigit = [] then none
              else some (l.takeWhile Char.isDigit, t1.takeWhile Char.isDigit,
                         t2.takeWhile Char.isDigit, t2.dropWhile Char.isDigit)
            else none
          | [] => none
      else none
    | [] => none

/-- Leftmost-first match of the whole regex `(.*)(\d+)\.(\d+)\.(\d+)(.*)`:
the greedy first group takes the longest prefix whose remainder still
matches `matchSuffix`, i.e. the version triple is taken at the rightmost
position where one starts.  Returns the first capture (the tag prefix)
and the `matchSuffix` captures. -/
def greedySplit : List Char → Option (List Char × (List Char × List Char × List Char × List Char))
  | [] => none
  | c :: l =>
    match greedySplit l with
    | some (p, m) => some (c :: p, m)
    | none =>
      match matchSuffix (c :: l) with
      | some m => some ([], m)
      | none => none

/-- Outcome of `split_tag_semver` (main.rs:76-105).  The Rust function
returns `Option`, but its numeric conversions call `.unwrap()`, so a
`u32` overflow is a panic rather than a `None`; the embedding keeps the
three observable outcomes apart. -/
inductive SplitResult where
  | found : String → Nat → Nat → Nat → String → SplitResult
  | noMatch : SplitResult
  | overflowPanic : SplitResult
deriving DecidableEq

/-- Embedding of `split_tag_semver` (main.rs:76-105): apply the regex; on
a match parse the three numeric captures as `u32` (a value beyond
`u32::MAX` makes `.unwrap()` panic, modelled as `overflowPanic`); with no
match return `None` (modelled as `noMatch`). -/
def split_tag_semver (tag : String) : SplitResult :=
  match greedySplit tag.data with
  | none => .noMatch
  | some (p, (d1, d2, d3, suf)) =>
    match parse_u32 d1, parse_u32 d2, parse_u32 d3 with
    | some a, some b, some c => .found (String.mk p) a b c (String.mk suf)
    | _, _, _ => .overflowPanic

/-- The bump selector: `Type` in `src/elements.rs` (that name is reserved
in Lean, hence `BumpType`). -/
inductive BumpType where
  | Major
  | Minor
  | Patch
deriving DecidableEq

/-- Embedding of `semver_bump` (main.rs:161-176).  The Rust function
mutates its three `&mut u32` arguments in place; the embedding returns
the new triple.  The increments are Rust `+=` on `u32`: with overflow
checks disabled (the default release profile) they wrap modulo `2^32`,
hence the explicit reduction. -/
def semver_bump (major minor patch : Nat) (bump : BumpType) : Nat × Nat × Nat :=
  match bump with
  | .Major => ((major + 1) % U32, 0, 0)
  | .Minor => (major, (minor + 1) % U32, 0)
  | .Patch => (major, minor, (patch + 1) % U32)

/-- Embedding of `on_master_branch` (main.rs:53-64): `head` is the
shorthand of the repository's HEAD reference, `none` when HEAD or its
shorthand cannot be read; the function is true exactly on `master` and
`main`. -/
def on_master_branch (head : Option String) : Bool :=
  match head with
  | some branch_name => branch_name == "master" || branch_name == "main"
  | none => false

/-- Modelled from the spec: the repository collaborator behind
`find_latest_semver_tag`.  The git2 `describe` machinery is external to
this repository; per the spec (section 4.1) the core only consumes "the
most recent tag name reachable from the current position, matching a
version-like pattern", abstracted here as that optional tag name. -/
structure Repo where
  latestReachableSemverTag : Option String

/-- Result of the tag lookup: the Rust function returns
`Result<String, git2::Error>`. -/
inductive TagLookup where
  | found : String → TagLookup
  | notFound : TagLookup
deriving DecidableEq

/-- Embedding of `find_latest_semver_tag` (main.rs:33-48).  Modelled from
the spec: with `show_commit_oid_as_fallback(false)` set, git2 `describe`
yields the nearest reachable matching tag and errors out when there is
none, never a commit id. -/
def find_latest_semver_tag (repo : Repo) : TagLookup :=
  match repo.latestReachableSemverTag with
  | some t => .found t
  | none => .notFound

/-- Canonical decimal digit character. -/
def digitChar (n : Nat) : Char :=
  match n with
  | 0 => '0'
  | 1 => '1'
  | 2 => '2'
  | 3 => '3'
  | 4 => '4'
  | 5 => '5'
  | 6 => '6'
  | 7 => '7'
  | 8 => '8'
  | _ => '9'

/-- Worker for `natToDigits`: `fuel` only drives the structural
recursion and never runs out when `n ≤ fuel`. -/
def natToDigitsAux : Nat → Nat → List Char → List Char
  | 0, n, acc => digitChar n :: acc
  | fuel + 1, n, acc =>
    if n < 10 then digitChar n :: acc
    else natToDigitsAux fuel (n / 10) (digitChar (n % 10) :: acc)

/-- Canonical decimal rendering of a natural number, as produced by Rust
`format!("{}", n)`: most significant digit first, no leading zeros. -/
def natToDigits (n : Nat) : List Char := natToDigitsAux n n []

/-- Embedding of the tag formatting in main.rs:217:
`format!("{}{}.{}.{}{}", tag_prefix, major, minor, patch, tag_suffix)`. -/
def format_tag (pre : String) (a b c : Nat) (suffix : String) : String :=
  pre ++ String.mk (natToDigits a) ++ "." ++ String.mk (natToDigits b) ++ "."
    ++ String.mk (natToDigits c) ++ suffix

/-- Steps of the workflow that touch the repository, in the order `main`
performs them. -/
inductive Action where
  | lookupTag
  | bumpVersion
  | createTag
deriving DecidableEq

/-- Observable outcome of one run of `main` (main.rs:198-219): the three
panics/early returns, or the new tag name handed to `create_new_tag`. -/
inductive MainOutcome where
  | abortedBranch
  | abortedNoTag
  | abortedNoVersion
  | abortedOverflow
  | tagged : String → MainOutcome
deriving DecidableEq

/-- Embedding of the workflow in `main` (main.rs:198-219): abort unless
forced or on master/main; look up the latest semver tag (the `.expect`
panics when there is none); split it (panic on no version, panic on
numeric overflow); bump; format; hand the new name to `create_new_tag`.
The second component records which repository-touching steps ran. -/
def run_main (force : Bool) (head : Option String) (repo : Repo) (bump : BumpType) :
    MainOutcome × List Action :=
  if !force && !(on_master_branch head) then (.abortedBranch, [])
  else
    match find_latest_semver_tag repo with
    | .notFound => (.abortedNoTag, [.lookupTag])
    | .found lastTag =>
      match split_tag_semver lastTag with
      | .noMatch => (.abortedNoVersion, [.lookupTag])
      | .overflowPanic => (.abortedOverflow, [.lookupTag])
      | .found pre major minor patch suffix =>
        match semver_bump major minor patch bump with
        | (a2, b2, c2) =>
          (.tagged (format_tag pre a2 b2 c2 suffix), [.lookupTag, .bumpVersion, .createTag])

/-- The string contains a `N.N.N` pattern: some position starts a
nonempty digit run, a dot, a nonempty digit run, a dot and a nonempty
digit run. -/
def HasTriple (l : List Char) : Prop :=
  ∃ q d1 d2 d3 r, l = q ++ (d1 ++ '.' :: (d2 ++ '.' :: (d3 ++ r))) ∧
    d1 ≠ [] ∧ d2 ≠ [] ∧ d3 ≠ [] ∧
    (∀ ch ∈ d1, ch.isDigit = true) ∧ (∀ ch ∈ d2, ch.isDigit = true) ∧
    (∀ ch ∈ d3, ch.isDigit = true)

/-! ### Basic digit lemmas -/

lemma charVal_le_nine (c : Char) (h : c.isDigit = true) : charVal c ≤ 9 := by
  simp only [Char.isDigit, decide_eq_true_eq, Bool.and_eq_true] at h
  obtain ⟨h1, h2⟩ := h
  have h3 : c.toNat ≤ 57 := h2
  unfold charVal
  omega

lemma digitChar_isDigit (n : Nat) : (digitChar n).isDigit = true := by
  unfold digitChar
  split <;> decide

lemma charVal_digitChar (n : Nat) (h : n ≤ 9) : charVal (digitChar n) = n := by
  interval_cases n <;> decide

lemma digitsVal_singleton (c : Char) : digitsVal [c] = charVal c := by
  simp [digitsVal]

lemma digitsVal_append_singleton (l : List Char) (c : Char) :
    digitsVal (l ++ [c]) = 10 * digitsVal l + charVal c := by
  simp [digitsVal, List.foldl_append]

lemma natToDigitsAux_lt (fuel n : Nat) (acc : List Char) (h : n < 10) :
    natToDigitsAux fuel n acc = digitChar n :: acc := by
  cases fuel with
  | zero => rfl
  | succ f => simp [natToDigitsAux, h]

lemma natToDigitsAux_general : ∀ (n fuel : Nat) (acc : List Char), n ≤ fuel →
    natToDigitsAux fuel n acc = natToDigitsAux n n [] ++ acc := by
  intro n
  induction n using Nat.strong_induction_on with
  | _ n ih =>
    intro fuel acc hf
    by_cases h : n < 10
    · rw [natToDigitsAux_lt fuel n acc h, natToDigitsAux_lt n n [] h]
      rfl
    · cases fuel with
      | zero => omega
      | succ f =>
        have hdiv : n / 10 < n := Nat.div_lt_self (by omega) (by omega)
        have step : natToDigitsAux (f + 1) n acc
            = natToDigitsAux f (n / 10) (digitChar (n % 10) :: acc) := by
          simp [natToDigitsAux, h]
        rw [step, ih (n / 10) hdiv f (digitChar (n % 10) :: acc) (by omega)]
        cases n with
        | zero => omega
        | succ g =>
          have step2 : natToDigitsAux (g + 1) (g + 1) []
              = natToDigitsAux g ((g + 1) / 10) [digitChar ((g + 1) % 10)] := by
            simp [natToDigitsAux, h]
          rw [step2, ih ((g + 1) / 10) hdiv g [digitChar ((g + 1) % 10)] (by omega)]
          simp

lemma natToDigits_of_lt (n : Nat) (h : n < 10) : natToDigits n = [digitChar n] := by
  unfold natToDigits
  rw [natToDigitsAux_lt n n [] h]

lemma natToDigits_of_ge (n : Nat) (h : ¬ n < 10) :
    natToDigits n = natToDigits (n / 10) ++ [digitChar (n % 10)] := by
  unfold natToDigits
  cases n with
  | zero => omega
  | succ g =>
    have hdiv : (g + 1) / 10 < g + 1 := Nat.div_lt_self (by omega) (by omega)
    have step : natToDigitsAux (g + 1) (g + 1) []
        = natToDigitsAux g ((g + 1) / 10) [digitChar ((g + 1) % 10)] := by
      simp [natToDigitsAux, h]
    rw [step, natToDigitsAux_general ((g + 1) / 10) g [digitChar ((g + 1) % 10)] (by omega)]

lemma natToDigits_ne_nil (n : Nat) : natToDigits n ≠ [] := by
  by_cases h : n < 10
  · rw [natToDigits_of_lt n h]
    simp
  · rw [natToDigits_of_ge n h]
    simp

lemma natToDigits_all_digit (n : Nat) : ∀ ch ∈ natToDigits n, ch.isDigit = true := by
  induction n using Nat.strong_induction_on with
  | _ n ih =>
    by_cases h : n < 10
    · rw [natToDigits_of_lt n h]
      intro ch hch
      simp at hch
      subst hch
      exact digitChar_isDigit n
    · rw [natToDigits_of_ge n h]
      intro ch hch
      rcases List.mem_append.mp hch with hch | hch
      · exact ih (n / 10) (Nat.div_lt_self (by omega) (by omega)) ch hch
      · simp at hch
        subst hch
        exact digitChar_isDigit (n % 10)

lemma digitsVal_natToDigits (n : Nat) : digitsVal (natToDigits n) = n := by
  induction n using Nat.strong_induction_on with
  | _ n ih =>
    by_cases h : n < 10
    · rw [natToDigits_of_lt n h, digitsVal_singleton, charVal_digitChar n (by omega)]
    · rw [natToDigits_of_ge n h, digitsVal_append_singleton,
        ih (n / 10) (Nat.div_lt_self (by omega) (by omega)),
        charVal_digitChar (n % 10) (by omega)]
      omega

/-! ### takeWhile and dropWhile on structured lists -/

lemma headDigit_false_take (R : List Char) (hR : headDigit R = false) :
    R.takeWhile Char.isDigit = [] ∧ R.dropWhile Char.isDigit = R := by
  cases R with
  | nil => simp
  | cons c t =>
    simp only [headDigit] at hR
    simp [List.takeWhile_cons, List.dropWhile_cons, hR]

lemma takeWhile_all_append (D R : List Char) (hD : ∀ ch ∈ D, ch.isDigit = true)
    (hR : headDigit R = false) :
    (D ++ R).takeWhile Char.isDigit = D ∧ (D ++ R).dropWhile Char.isDigit = R := by
  induction D with
  | nil =>
    simpa using headDigit_false_take R hR
  | cons c D ih =>
    have hc : c.isDigit = true := hD c (List.mem_cons_self c D)
    have ih2 := ih (fun ch hch => hD ch (List.mem_cons_of_mem c hch))
    simp [List.takeWhile_cons, List.dropWhile_cons, hc, ih2.1, ih2.2]

lemma headDigit_dropWhile (l : List Char) :
    headDigit (l.dropWhile Char.isDigit) = false := by
  induction l with
  | nil => rfl
  | cons c t ih =>
    rw [List.dropWhile_cons]
    by_cases h : c.isDigit
    · simpa [h] using ih
    · simp only [h]
      simpa [headDigit] using Bool.of_not_eq_true h

/-! ### matchSuffix: structure lemmas -/

lemma matchSuffix_nil : matchSuffix [] = none := rfl

lemma matchSuffix_none_headDigit (l : List Char) (h : headDigit l = false) :
    matchSuffix l = none := by
  obtain ⟨h1, _⟩ := headDigit_false_take l h
  simp [matchSuffix, h1]

lemma matchSuffix_eq_some_of (D1 D2 D3 R : List Char)
    (h1 : D1 ≠ []) (hd1 : ∀ ch ∈ D1, ch.isDigit = true)
    (h2 : D2 ≠ []) (hd2 : ∀ ch ∈ D2, ch.isDigit = true)
    (h3 : D3 ≠ []) (hd3 : ∀ ch ∈ D3, ch.isDigit = true)
    (hR : headDigit R = false) :
    matchSuffix (D1 ++ '.' :: (D2 ++ '.' :: (D3 ++ R))) = some (D1, D2, D3, R) := by
  have e1 := takeWhile_all_append D1 ('.' :: (D2 ++ '.' :: (D3 ++ R))) hd1 (by rfl)
  have e2 := takeWhile_all_append D2 ('.' :: (D3 ++ R)) hd2 (by rfl)
  have e3 := takeWhile_all_append D3 R hd3 hR
  simp [matchSuffix, e1.1, e1.2, e2.1, e2.2, e3.1, e3.2, h1, h2, h3]

lemma matchSuffix_inv (l d1 d2 d3 r : List Char)
    (h : matchSuffix l = some (d1, d2, d3, r)) :
    l = d1 ++ '.' :: (d2 ++ '.' :: (d3 ++ r)) ∧ d1 ≠ [] ∧ d2 ≠ [] ∧ d3 ≠ [] ∧
    (∀ ch ∈ d1, ch.isDigit = true) ∧ (∀ ch ∈ d2, ch.isDigit = true) ∧
    (∀ ch ∈ d3, ch.isDigit = true) ∧ headDigit r = false := by
  unfold matchSuffix at h
  split at h
  · exact Option.noConfusion h
  next h1 =>
    split at h
    next x1 t1 heq1 =>
      split at h
      next hx1 =>
        subst hx1
        split at h
        · exact Option.noConfusion h
        next h2 =>
          split at h
          next x2 t2 heq2 =>
            split at h
            next hx2 =>
              subst hx2
              split at h
              · exact Option.noConfusion h
              next h3 =>
                simp only [Option.some.injEq, Prod.mk.injEq] at h
                obtain ⟨hh1, hh2, hh3, hh4⟩ := h
                subst hh1 hh2 hh3 hh4
                refine ⟨?_, h1, h2, h3, ?_, ?_, ?_, ?_⟩
                · conv_lhs => rw [← List.takeWhile_append_dropWhile Char.isDigit l]
                  rw [heq1]
                  conv_lhs => rw [← List.takeWhile_append_dropWhile Char.isDigit t1]
                  rw [heq2]
                  conv_lhs => rw [← List.takeWhile_append_dropWhile Char.isDigit t2]
                · exact fun ch hch => List.mem_takeWhile_imp hch
                · exact fun ch hch => List.mem_takeWhile_imp hch
                · exact fun ch hch => List.mem_takeWhile_imp hch
                · exact headDigit_dropWhile t2
            next => exact Option.noConfusion h
          next => exact Option.noConfusion h
      next => exact Option.noConfusion h
    next => exact Option.noConfusion h

lemma matchSuffix_isSome_of (D1 D2 D3 R : List Char)
    (h1 : D1 ≠ []) (hd1 : ∀ ch ∈ D1, ch.isDigit = true)
    (h2 : D2 ≠ []) (hd2 : ∀ ch ∈ D2, ch.isDigit = true)
    (h3 : D3 ≠ []) (hd3 : ∀ ch ∈ D3, ch.isDigit = true) :
    matchSuffix (D1 ++ '.' :: (D2 ++ '.' :: (D3 ++ R))) ≠ none := by
  have hsplit : D3 ++ R
      = (D3 ++ R.takeWhile Char.isDigit) ++ R.dropWhile Char.isDigit := by
    rw [List.append_assoc, List.takeWhile_append_dropWhile]
  rw [hsplit, matchSuffix_eq_some_of D1 D2 (D3 ++ R.takeWhile Char.isDigit)
    (R.dropWhile Char.isDigit) h1 hd1 h2 hd2
    (by simp [h3]) ?_ (headDigit_dropWhile R)]
  · exact Option.noConfusion
  · intro ch hch
    rcases List.mem_append.mp hch with hch | hch
    · exact hd3 ch hch
    · exact List.mem_takeWhile_imp hch

/-! ### greedySplit: soundness, maximality, characterization -/

lemma greedySplit_sound : ∀ (l : List Char) (p : List Char)
    (m : List Char × List Char × List Char × List Char),
    greedySplit l = some (p, m) → ∃ r, l = p ++ r ∧ matchSuffix r = some m := by
  intro l
  induction l with
  | nil => intro p m h; exact Option.noConfusion h
  | cons c t ih =>
    intro p m h
    simp only [greedySplit] at h
    cases hg : greedySplit t with
    | some pm =>
      obtain ⟨p', m'⟩ := pm
      rw [hg] at h
      simp only [Option.some.injEq, Prod.mk.injEq] at h
      obtain ⟨hp, hm⟩ := h
      subst hp
      subst hm
      obtain ⟨r, hr, hmr⟩ := ih p' m' hg
      exact ⟨r, by simp [hr], hmr⟩
    | none =>
      rw [hg] at h
      cases hm0 : matchSuffix (c :: t) with
      | some m0 =>
        rw [hm0] at h
        simp only [Option.some.injEq, Prod.mk.injEq] at h
        obtain ⟨hp, hm⟩ := h
        subst hp
        subst hm
        exact ⟨c :: t, rfl, hm0⟩
      | none => rw [hm0] at h; exact Option.noConfusion h

lemma greedySplit_none_forall : ∀ (l : List Char), greedySplit l = none →
    ∀ q r, l = q ++ r → matchSuffix r = none := by
  intro l
  induction l with
  | nil =>
    intro _ q r hqr
    have hr : r = [] := by
      rcases List.append_eq_nil.mp hqr.symm with ⟨_, h2⟩
      exact h2
    rw [hr]
    exact matchSuffix_nil
  | cons c t ih =>
    intro h q r hqr
    simp only [greedySplit] at h
    cases hg : greedySplit t with
    | some pm => obtain ⟨p, m⟩ := pm; rw [hg] at h; exact Option.noConfusion h
    | none =>
      rw [hg] at h
      cases hm0 : matchSuffix (c :: t) with
      | some m0 => rw [hm0] at h; exact Option.noConfusion h
      | none =>
        cases q with
        | nil =>
          simp only [List.nil_append] at hqr
          rw [← hqr]
          exact hm0
        | cons x q' =>
          have hx : t = q' ++ r := by
            simpa using congrArg List.tail hqr
          exact ih hg q' r hx

lemma greedySplit_none_of_forall : ∀ (l : List Char),
    (∀ q r, l = q ++ r → matchSuffix r = none) → greedySplit l = none := by
  intro l
  induction l with
  | nil => intro _; rfl
  | cons c t ih =>
    intro h
    have hgt : greedySplit t = none := by
      apply ih
      intro q r hqr
      exact h (c :: q) r (by simp [hqr])
    have hm0 : matchSuffix (c :: t) = none := h [] (c :: t) rfl
    simp [greedySplit, hgt, hm0]

lemma greedySplit_max : ∀ (l : List Char) (p : List Char)
    (m : List Char × List Char × List Char × List Char),
    greedySplit l = some (p, m) →
    ∀ q r, l = q ++ r → p.length < q.length → matchSuffix r = none := by
  intro l
  induction l with
  | nil => intro p m h; exact Option.noConfusion h
  | cons c t ih =>
    intro p m h q r hqr hlt
    simp only [greedySplit] at h
    cases hg : greedySplit t with
    | some pm =>
      obtain ⟨p', m'⟩ := pm
      rw [hg] at h
      simp only [Option.some.injEq, Prod.mk.injEq] at h
      obtain ⟨hp, hm⟩ := h
      subst hp
      subst hm
      cases q with
      | nil => simp at hlt
      | cons x q' =>
        have hx : t = q' ++ r := by
          simpa using congrArg List.tail hqr
        exact ih p' m' hg q' r hx (by simpa using hlt)
    | none =>
      rw [hg] at h
      cases hm0 : matchSuffix (c :: t) with
      | some m0 =>
        rw [hm0] at h
        simp only [Option.some.injEq, Prod.mk.injEq] at h
        obtain ⟨hp, _⟩ := h
        subst hp
        cases q with
        | nil => simp at hlt
        | cons x q' =>
          have hx : t = q' ++ r := by
            simpa using congrArg List.tail hqr
          exact greedySplit_none_forall t hg q' r hx
      | none => rw [hm0] at h; exact Option.noConfusion h

lemma greedySplit_eq_of : ∀ (P l r : List Char)
    (m : List Char × List Char × List Char × List Char), l = P ++ r →
    matchSuffix r = some m →
    (∀ q r', l = q ++ r' → P.length < q.length → matchSuffix r' = none) →
    greedySplit l = some (P, m) := by
  intro P
  induction P with
  | nil =>
    intro l r m hl hm hmax
    simp only [List.nil_append] at hl
    subst hl
    cases l with
    | nil => rw [matchSuffix_nil] at hm; exact Option.noConfusion hm
    | cons c t =>
      have hgt : greedySplit t = none := by
        apply greedySplit_none_of_forall
        intro q' r' hqr'
        exact hmax (c :: q') r' (by simp [hqr']) (by simp)
      simp [greedySplit, hgt, hm]
  | cons c P' ih =>
    intro l r m hl hm hmax
    subst hl
    have hrec : greedySplit (P' ++ r) = some (P', m) := by
      apply ih (P' ++ r) r m rfl hm
      intro q r' hqr' hlt
      exact hmax (c :: q) r' (by simp [hqr']) (by simpa using hlt)
    simp [greedySplit, hrec]

/-! ### HasTriple and match existence -/

lemma hasTriple_of_match (l q r d1 d2 d3 suf : List Char) (hqr : l = q ++ r)
    (hm : matchSuffix r = some (d1, d2, d3, suf)) : HasTriple l := by
  obtain ⟨hr, h1, h2, h3, hd1, hd2, hd3, _⟩ := matchSuffix_inv r d1 d2 d3 suf hm
  exact ⟨q, d1, d2, d3, suf, by rw [hqr, hr], h1, h2, h3, hd1, hd2, hd3⟩

lemma noTriple_forall_none (l : List Char) (h : ¬ HasTriple l) :
    ∀ q r, l = q ++ r → matchSuffix r = none := by
  intro q r hqr
  cases hm : matchSuffix r with
  | none => rfl
  | some m =>
    obtain ⟨d1, d2, d3, suf⟩ := m
    exact absurd (hasTriple_of_match l q r d1 d2 d3 suf hqr hm) h

lemma hasTriple_greedy (l : List Char) (h : HasTriple l) : greedySplit l ≠ none := by
  obtain ⟨q, d1, d2, d3, r, hl, h1, h2, h3, hd1, hd2, hd3⟩ := h
  intro hg
  have hnone := greedySplit_none_forall l hg q (d1 ++ '.' :: (d2 ++ '.' :: (d3 ++ r))) hl
  exact matchSuffix_isSome_of d1 d2 d3 r h1 hd1 h2 hd2 h3 hd3 hnone

lemma greedy_hasTriple (l p : List Char)
    (m : List Char × List Char × List Char × List Char)
    (h : greedySplit l = some (p, m)) : HasTriple l := by
  obtain ⟨r, hr, hm⟩ := greedySplit_sound l p m h
  obtain ⟨d1, d2, d3, suf⟩ := m
  exact hasTriple_of_match l p r d1 d2 d3 suf hr hm

lemma noTriple_of_greedy_none (l : List Char) (h : greedySplit l = none) :
    ¬ HasTriple l :=
  fun ht => hasTriple_greedy l ht h

/-! ### No match strictly inside the formatted version part -/

lemma noDotDigitTake (S : List Char) (hS2 : headDotDigit S = false) :
    ∀ t, S = '.' :: t → t.takeWhile Char.isDigit = [] := by
  intro t ht
  subst ht
  cases t with
  | nil => rfl
  | cons u t' =>
    have hu : u.isDigit = false := by simpa [headDotDigit] using hS2
    simp [List.takeWhile_cons, hu]

lemma msNone_digits_S (R S : List Char) (hR : ∀ ch ∈ R, ch.isDigit = true)
    (hS1 : headDigit S = false) (hS2 : headDotDigit S = false) :
    matchSuffix (R ++ S) = none := by
  cases R with
  | nil => simpa using matchSuffix_none_headDigit S hS1
  | cons c R' =>
    have e1 := takeWhile_all_append (c :: R') S hR hS1
    unfold matchSuffix
    rw [e1.1, e1.2]
    rw [if_neg (by simp)]
    split
    next x1 t1 =>
      by_cases hx1 : x1 = '.'
      · subst hx1
        rw [if_pos rfl, if_pos (noDotDigitTake ('.' :: t1) hS2 t1 rfl)]
      · rw [if_neg hx1]
    next => rfl

lemma msNone_digits_dot (R D3 S : List Char) (hR : ∀ ch ∈ R, ch.isDigit = true)
    (h3 : D3 ≠ []) (hd3 : ∀ ch ∈ D3, ch.isDigit = true)
    (hS1 : headDigit S = false) (hS2 : headDotDigit S = false) :
    matchSuffix (R ++ '.' :: (D3 ++ S)) = none := by
  cases R with
  | nil => simpa using matchSuffix_none_headDigit ('.' :: (D3 ++ S)) (by rfl)
  | cons c R' =>
    have e1 := takeWhile_all_append (c :: R') ('.' :: (D3 ++ S)) hR (by rfl)
    have e3 := takeWhile_all_append D3 S hd3 hS1
    unfold matchSuffix
    rw [e1.1, e1.2]
    rw [if_neg (by simp)]
    split
    next x1 t1 heq1 =>
      injection heq1 with hx1 ht1
      subst hx1
      subst ht1
      rw [if_pos rfl]
      rw [e3.1, e3.2]
      rw [if_neg h3]
      split
      next x2 t2 =>
        by_cases hx2 : x2 = '.'
        · subst hx2
          rw [if_pos rfl, if_pos (noDotDigitTake ('.' :: t2) hS2 t2 rfl)]
        · rw [if_neg hx2]
      next => rfl
    next => rfl

/-- No suffix of `'.' :: (D2 ++ '.' :: (D3 ++ S))` other than the whole
matches the regex tail, provided the digit groups are digits and `S`
neither contains a triple nor begins with a digit or with a dot followed
by a digit. -/
lemma noneAfter (D2 D3 S : List Char)
    (hd2 : ∀ ch ∈ D2, ch.isDigit = true)
    (h3 : D3 ≠ []) (hd3 : ∀ ch ∈ D3, ch.isDigit = true)
    (hT : ¬ HasTriple S) (hS1 : headDigit S = false) (hS2 : headDotDigit S = false) :
    ∀ q r, '.' :: (D2 ++ '.' :: (D3 ++ S)) = q ++ r → matchSuffix r = none := by
  intro q r hqr
  cases q with
  | nil =>
    simp only [List.nil_append] at hqr
    rw [← hqr]
    exact matchSuffix_none_headDigit _ (by rfl)
  | cons x q' =>
    rw [List.cons_append] at hqr
    injection hqr with hx ht
    rcases List.append_eq_append_iff.mp ht.symm with ⟨a2, ha2, hra⟩ | ⟨c2, hc2, hrc⟩
    · -- the split point is inside D2: r = a2 ++ '.' :: (D3 ++ S)
      have ha2d : ∀ ch ∈ a2, ch.isDigit = true := by
        intro ch hch
        exact hd2 ch (by rw [ha2]; exact List.mem_append_right q' hch)
      rw [hra]
      exact msNone_digits_dot a2 D3 S ha2d h3 hd3 hS1 hS2
    · -- the split point is at or after the second dot
      cases c2 with
      | nil =>
        simp only [List.nil_append] at hrc
        rw [← hrc]
        exact matchSuffix_none_headDigit _ (by rfl)
      | cons y c2' =>
        rw [List.cons_append] at hrc
        injection hrc with hy ht2
        rcases List.append_eq_append_iff.mp ht2.symm with ⟨a3, ha3, hra3⟩ | ⟨c3, hc3, hrc3⟩
        · -- inside D3: r = a3 ++ S
          have ha3d : ∀ ch ∈ a3, ch.isDigit = true := by
            intro ch hch
            exact hd3 ch (by rw [ha3]; exact List.mem_append_right c2' hch)
          rw [hra3]
          exact msNone_digits_S a3 S ha3d hS1 hS2
        · -- inside S: r is a suffix of S
          exact noTriple_forall_none S hT c3 r hrc3

/-- The greedy regex match on a canonically formatted tag with a
single-digit major recovers exactly the formatted parts. -/
lemma split_format_general (P S : List Char) (a b c : Nat) (ha : a ≤ 9)
    (hT : ¬ HasTriple S) (hS1 : headDigit S = false) (hS2 : headDotDigit S = false) :
    greedySplit (P ++ (natToDigits a ++ '.' :: (natToDigits b ++ '.' :: (natToDigits c ++ S))))
      = some (P, (natToDigits a, natToDigits b, natToDigits c, S)) := by
  have hda : natToDigits a = [digitChar a] := natToDigits_of_lt a (by omega)
  have hm : matchSuffix (natToDigits a ++ '.' :: (natToDigits b ++ '.' :: (natToDigits c ++ S)))
      = some (natToDigits a, natToDigits b, natToDigits c, S) :=
    matchSuffix_eq_some_of _ _ _ _ (natToDigits_ne_nil a) (natToDigits_all_digit a)
      (natToDigits_ne_nil b) (natToDigits_all_digit b)
      (natToDigits_ne_nil c) (natToDigits_all_digit c) hS1
  apply greedySplit_eq_of P _ _ _ rfl hm
  intro q r hqr hlt
  rcases List.append_eq_append_iff.mp hqr.symm with ⟨a1, ha1, hra⟩ | ⟨c1, hc1, hrc⟩
  · -- the split point falls inside P: contradicts the length bound
    have hlen := congrArg List.length ha1
    simp only [List.length_append] at hlen
    omega
  · -- q extends into the version part by c1 characters
    cases c1 with
    | nil =>
      have hlen := congrArg List.length hc1
      simp only [List.length_append, List.length_nil] at hlen
      omega
    | cons z c1' =>
      rw [hda, List.singleton_append, List.cons_append] at hrc
      injection hrc with hz htl
      exact noneAfter (natToDigits b) (natToDigits c) S (natToDigits_all_digit b)
        (natToDigits_ne_nil c) (natToDigits_all_digit c) hT hS1 hS2 c1' r htl

/-- Parsing a canonically formatted tag with a single-digit major and a
benign suffix recovers exactly the formatted parts. -/
lemma split_format (pre suffix : String) (a b c : Nat)
    (ha : a ≤ 9) (hb : b < U32) (hc : c < U32)
    (hT : ¬ HasTriple suffix.data)
    (hS1 : headDigit suffix.data = false) (hS2 : headDotDigit suffix.data = false) :
    split_tag_semver (format_tag pre a b c suffix) = .found pre a b c suffix := by
  have hdata : (format_tag pre a b c suffix).data
      = pre.data ++ (natToDigits a ++ '.' :: (natToDigits b ++ '.' :: (natToDigits c ++ suffix.data))) := by
    simp [format_tag, String.data_append]
  unfold split_tag_semver
  rw [hdata, split_format_general pre.data suffix.data a b c ha hT hS1 hS2]
  have pa : parse_u32 (natToDigits a) = some a := by
    unfold parse_u32
    rw [digitsVal_natToDigits, if_pos (show a < U32 from by unfold U32; omega)]
  have pb : parse_u32 (natToDigits b) = some b := by
    unfold parse_u32
    rw [digitsVal_natToDigits, if_pos hb]
  have pc : parse_u32 (natToDigits c) = some c := by
    unfold parse_u32
    rw [digitsVal_natToDigits, if_pos hc]
  simp only [pa, pb, pc]

/-! ### Inversion lemmas for split_tag_semver -/

lemma parse_u32_some (d : List Char) (a : Nat) (h : parse_u32 d = some a) :
    a = digitsVal d ∧ digitsVal d < U32 := by
  unfold parse_u32 at h
  split at h
  next hlt =>
    injection h with h'
    exact ⟨h'.symm, hlt⟩
  next => exact Option.noConfusion h

/-- The first numeric capture of the greedy match is always one single
digit: the greedy prefix absorbs every digit but the last. -/
lemma greedy_d1_single (l p d1 d2 d3 suf : List Char)
    (h : greedySplit l = some (p, (d1, d2, d3, suf))) :
    ∃ ch, d1 = [ch] ∧ ch.isDigit = true := by
  obtain ⟨r, hr, hm⟩ := greedySplit_sound l p (d1, d2, d3, suf) h
  obtain ⟨hstruct, h1, h2, h3, hd1, hd2, hd3, hsuf⟩ := matchSuffix_inv r d1 d2 d3 suf hm
  cases d1 with
  | nil => exact absurd rfl h1
  | cons ch d1' =>
    refine ⟨ch, ?_, hd1 ch (List.mem_cons_self ch d1')⟩
    cases d1' with
    | nil => rfl
    | cons ch2 d1'' =>
      exfalso
      have hsplit : l = (p ++ [ch]) ++ ((ch2 :: d1'') ++ '.' :: (d2 ++ '.' :: (d3 ++ suf))) := by
        rw [hr, hstruct]
        simp
      have hlen : p.length < (p ++ [ch]).length := by simp
      have hnone := greedySplit_max l p (ch :: ch2 :: d1'', d2, d3, suf) h
        (p ++ [ch]) ((ch2 :: d1'') ++ '.' :: (d2 ++ '.' :: (d3 ++ suf))) hsplit hlen
      exact matchSuffix_isSome_of (ch2 :: d1'') d2 d3 suf (by simp)
        (fun x hx => hd1 x (List.mem_cons_of_mem ch hx)) h2 hd2 h3 hd3 hnone

lemma split_found_major_le (s p : String) (a b c : Nat) (suf : String)
    (h : split_tag_semver s = .found p a b c suf) : a ≤ 9 := by
  unfold split_tag_semver at h
  split at h
  · exact SplitResult.noConfusion h
  next p0 d1 d2 d3 suf0 heq =>
    split at h
    next a0 b0 c0 hp1 hp2 hp3 =>
      injection h with h1 h2 h3 h4 h5
      obtain ⟨ch, hch, hdig⟩ := greedy_d1_single s.data p0 d1 d2 d3 suf0 heq
      obtain ⟨ha0, _⟩ := parse_u32_some d1 a0 hp1
      rw [← h2, ha0, hch, digitsVal_singleton]
      exact charVal_le_nine ch hdig
    next => exact SplitResult.noConfusion h

lemma split_noMatch_iff (s : String) :
    split_tag_semver s = .noMatch ↔ ¬ HasTriple s.data := by
  constructor
  · intro h
    unfold split_tag_semver at h
    cases hg : greedySplit s.data with
    | none => exact noTriple_of_greedy_none _ hg
    | some pm =>
      obtain ⟨p, d1, d2, d3, suf⟩ := pm
      rw [hg] at h
      cases hp1 : parse_u32 d1 with
      | none => simp [hp1] at h
      | some a0 =>
        cases hp2 : parse_u32 d2 with
        | none => simp [hp1, hp2] at h
        | some b0 =>
          cases hp3 : parse_u32 d3 with
          | none => simp [hp1, hp2, hp3] at h
          | some c0 => simp [hp1, hp2, hp3] at h
  · intro h
    have hg : greedySplit s.data = none := by
      cases hgg : greedySplit s.data with
      | none => rfl
      | some pm =>
        obtain ⟨p, m⟩ := pm
        exact absurd (greedy_hasTriple _ p m hgg) h
    unfold split_tag_semver
    rw [hg]

lemma split_overflow_of (s : String) (p d1 d2 d3 suf : List Char)
    (hg : greedySplit s.data = some (p, (d1, d2, d3, suf)))
    (hov : U32 ≤ digitsVal d1 ∨ U32 ≤ digitsVal d2 ∨ U32 ≤ digitsVal d3) :
    split_tag_semver s = .overflowPanic := by
  unfold split_tag_semver
  rw [hg]
  cases hp1 : parse_u32 d1 with
  | none => simp [hp1]
  | some a0 =>
    cases hp2 : parse_u32 d2 with
    | none => simp [hp1, hp2]
    | some b0 =>
      cases hp3 : parse_u32 d3 with
      | none => simp [hp1, hp2, hp3]
      | some c0 =>
        exfalso
        rcases hov with hov | hov | hov
        · exact absurd (parse_u32_some d1 a0 hp1).2 (by omega)
        · exact absurd (parse_u32_some d2 b0 hp2).2 (by omega)
        · exact absurd (parse_u32_some d3 c0 hp3).2 (by omega)

/-! ### Claim theorems -/

/-- C1: for every triple whose incremented component does not overflow,
`semver_bump` follows the cascading-reset table: Major yields
(major+1, 0, 0), Minor yields (major, minor+1, 0), Patch yields
(major, minor, patch+1), leaving higher-order components untouched. -/
theorem c1_bump_cascading_reset (major minor patch : Nat) :
    (major + 1 < U32 → semver_bump major minor patch .Major = (major + 1, 0, 0)) ∧
    (minor + 1 < U32 → semver_bump major minor patch .Minor = (major, minor + 1, 0)) ∧
    (patch + 1 < U32 → semver_bump major minor patch .Patch = (major, minor, patch + 1)) := by
  refine ⟨fun h => ?_, fun h => ?_, fun h => ?_⟩ <;>
    simp [semver_bump, Nat.mod_eq_of_lt h]

/-- C1 witness: the spec's examples, bumping (1,2,3) each way. -/
theorem c1_bump_cascading_reset_witness :
    semver_bump 1 2 3 .Major = (2, 0, 0) ∧ semver_bump 1 2 3 .Minor = (1, 3, 0) ∧
      semver_bump 1 2 3 .Patch = (1, 2, 4) :=
  ⟨(c1_bump_cascading_reset 1 2 3).1 (by decide),
   (c1_bump_cascading_reset 1 2 3).2.1 (by decide),
   (c1_bump_cascading_reset 1 2 3).2.2 (by decide)⟩

/-- C2 counterexample: bumping the valid triple (9,0,0) with Major gives
major 10; formatting (with empty prefix and suffix) and re-parsing yields
("1", 0, 0, 0, "") instead of the bumped triple, because the greedy
prefix steals the leading digit. -/
theorem c2_bump_round_trip_counterexample :
    semver_bump 9 0 0 .Major = (10, 0, 0) ∧
    split_tag_semver (format_tag "" 10 0 0 "") = .found "1" 0 0 0 "" ∧
    split_tag_semver (format_tag "" 10 0 0 "") ≠ .found "" 10 0 0 "" :=
  ⟨by decide, by decide, by decide⟩

/-- C2 (amended): bump-format-parse recovers exactly the bumped triple,
prefix and suffix, provided the bumped major is a single digit, the
bumped minor and patch are representable, the suffix does not start with
a digit or with a dot followed by a digit and contains no `N.N.N`
pattern, and prefix and suffix contain no newline. -/
theorem c2_bump_round_trip (pre suffix : String) (a b c : Nat) (k : BumpType)
    (ha : (semver_bump a b c k).1 ≤ 9)
    (hb : (semver_bump a b c k).2.1 < U32)
    (hc : (semver_bump a b c k).2.2 < U32)
    (hsuf : ¬ HasTriple suffix.data)
    (hS1 : headDigit suffix.data = false)
    (hS2 : headDotDigit suffix.data = false)
    (hpn : pre.data.contains '\n' = false)
    (hsn : suffix.data.contains '\n' = false) :
    split_tag_semver (format_tag pre (semver_bump a b c k).1 (semver_bump a b c k).2.1
        (semver_bump a b c k).2.2 suffix)
      = .found pre (semver_bump a b c k).1 (semver_bump a b c k).2.1
          (semver_bump a b c k).2.2 suffix :=
  split_format pre suffix _ _ _ ha hb hc hsuf hS1 hS2

/-- C2 witness: the spec's end-to-end example, "v2.4.9" bumped Minor. -/
theorem c2_bump_round_trip_witness :
    split_tag_semver (format_tag "v" (semver_bump 2 4 9 .Minor).1
        (semver_bump 2 4 9 .Minor).2.1 (semver_bump 2 4 9 .Minor).2.2 "")
      = .found "v" (semver_bump 2 4 9 .Minor).1 (semver_bump 2 4 9 .Minor).2.1
          (semver_bump 2 4 9 .Minor).2.2 "" :=
  c2_bump_round_trip "v" "" 2 4 9 .Minor (by decide) (by decide) (by decide)
    (noTriple_of_greedy_none _ rfl) (by decide) (by decide) (by decide) (by decide)

/-- C3 counterexample: with empty prefix and suffix (which contain no
`N.N.N` pattern) and the triple (12,3,4), parsing the formatted string
"12.3.4" yields ("1", 2, 3, 4, "") rather than ("", 12, 3, 4, ""). -/
theorem c3_format_parse_counterexample :
    ¬ HasTriple ("" : String).data ∧
    split_tag_semver (format_tag "" 12 3 4 "") = .found "1" 2 3 4 "" ∧
    split_tag_semver (format_tag "" 12 3 4 "") ≠ .found "" 12 3 4 "" :=
  ⟨noTriple_of_greedy_none _ rfl, by decide, by decide⟩

/-- C3 (amended): format-then-parse recovers (prefix, a, b, c, suffix)
exactly, for prefix and suffix not containing an `N.N.N` pattern,
provided additionally that the major is a single digit (a ≤ 9), minor
and patch are representable, the suffix starts neither with a digit nor
with a dot followed by a digit, and prefix and suffix contain no
newline. -/
theorem c3_format_parse_round_trip (pre suffix : String) (a b c : Nat)
    (hpre : ¬ HasTriple pre.data)
    (hsuf : ¬ HasTriple suffix.data)
    (ha : a ≤ 9) (hb : b < U32) (hc : c < U32)
    (hS1 : headDigit suffix.data = false)
    (hS2 : headDotDigit suffix.data = false)
    (hpn : pre.data.contains '\n' = false)
    (hsn : suffix.data.contains '\n' = false) :
    split_tag_semver (format_tag pre a b c suffix) = .found pre a b c suffix :=
  split_format pre suffix a b c ha hb hc hsuf hS1 hS2

/-- C3 witness: prefix "v", triple (1,2,3), suffix "-rc". -/
theorem c3_format_parse_round_trip_witness :
    split_tag_semver (format_tag "v" 1 2 3 "-rc") = .found "v" 1 2 3 "-rc" :=
  c3_format_parse_round_trip "v" "-rc" 1 2 3
    (noTriple_of_greedy_none _ rfl) (noTriple_of_greedy_none _ rfl)
    (by decide) (by decide) (by decide) (by decide) (by decide) (by decide) (by decide)

/-- C4: the parser takes the rightmost `N.N.N` run (no match starts
after the chosen prefix, and the input is exactly the prefix followed by
the matched part), and satisfies the three boundary cases of the spec. -/
theorem c4_rightmost_triple :
    (∀ (l p : List Char) (m : List Char × List Char × List Char × List Char) (q r : List Char),
      greedySplit l = some (p, m) → l = q ++ r → p.length < q.length → matchSuffix r = none) ∧
    (∀ (l p : List Char) (m : List Char × List Char × List Char × List Char),
      greedySplit l = some (p, m) → ∃ r, l = p ++ r ∧ matchSuffix r = some m) ∧
    split_tag_semver "v1.2.3-rc" = .found "v" 1 2 3 "-rc" ∧
    split_tag_semver "1.2.3" = .found "" 1 2 3 "" ∧
    split_tag_semver "a-1.0.0-2.5.9-b" = .found "a-1.0.0-" 2 5 9 "-b" :=
  ⟨fun l p m q r h hqr hlt => greedySplit_max l p m h q r hqr hlt,
   fun l p m h => greedySplit_sound l p m h, rfl, rfl, rfl⟩

/-- C4 witness: in "a-1.0.0-2.5.9-b" no match starts to the right of the
chosen prefix "a-1.0.0-". -/
theorem c4_rightmost_triple_witness :
    matchSuffix (".5.9-b").data = none :=
  c4_rightmost_triple.1 ("a-1.0.0-2.5.9-b").data ("a-1.0.0-").data
    (("2").data, ("5").data, ("9").data, ("-b").data) ("a-1.0.0-2").data (".5.9-b").data
    (by decide) (by decide) (by decide)

/-- C5: `split_tag_semver` returns `None` exactly when the input has no
`N.N.N` pattern, and the workflow treats that as a hard failure (it
aborts with no default version substituted). -/
theorem c5_none_iff_no_triple :
    (∀ s : String, split_tag_semver s = .noMatch ↔ ¬ HasTriple s.data) ∧
    (∀ (head : Option String) (t : String) (k : BumpType), ¬ HasTriple t.data →
      run_main true head ⟨some t⟩ k = (.abortedNoVersion, [.lookupTag])) := by
  constructor
  · exact split_noMatch_iff
  · intro head t k h
    have hs : split_tag_semver t = .noMatch := (split_noMatch_iff t).mpr h
    simp [run_main, find_latest_semver_tag, hs]

/-- C5 witness: the spec's example "release" has no version; the
workflow aborts on it. -/
theorem c5_none_iff_no_triple_witness :
    run_main true none ⟨some "release"⟩ .Major = (.abortedNoVersion, [.lookupTag]) :=
  c5_none_iff_no_triple.2 none "release" .Major ((c5_none_iff_no_triple.1 "release").mp rfl)

/-- C6: when a captured numeric group exceeds `u32::MAX`, the split is a
fatal numeric-overflow panic and no tuple is returned. -/
theorem c6_overflow_is_fatal (tag : String) (p d1 d2 d3 suf : List Char)
    (hg : greedySplit tag.data = some (p, (d1, d2, d3, suf)))
    (hov : U32 ≤ digitsVal d1 ∨ U32 ≤ digitsVal d2 ∨ U32 ≤ digitsVal d3) :
    split_tag_semver tag = .overflowPanic ∧
    ∀ (pre : String) (a b c : Nat) (sufS : String),
      split_tag_semver tag ≠ .found pre a b c sufS := by
  have h := split_overflow_of tag p d1 d2 d3 suf hg hov
  exact ⟨h, fun pre a b c sufS heq => by rw [h] at heq; exact SplitResult.noConfusion heq⟩

/-- C6 witness: the minor group of "1.4294967296.0" exceeds `u32::MAX`. -/
theorem c6_overflow_is_fatal_witness :
    split_tag_semver "1.4294967296.0" = .overflowPanic :=
  (c6_overflow_is_fatal "1.4294967296.0" [] (("1").data) (("4294967296").data)
    (("0").data) [] (by decide) (by decide)).1

/-- C7: the faithful embedding of the release-profile Rust `+=` shows
the wraparound the claim denies: at `u32::MAX` the incremented component
becomes 0 instead of raising a fatal error. -/
theorem c7_bump_overflow_wraps :
    semver_bump 4294967295 0 0 .Major = (0, 0, 0) ∧
    semver_bump 1 4294967295 2 .Minor = (1, 0, 0) ∧
    semver_bump 1 2 4294967295 .Patch = (1, 2, 0) :=
  ⟨by decide, by decide, by decide⟩

/-- C8: with no reachable matching tag the lookup reports not-found
(never a commit id), and the workflow aborts without reaching the bump
or tag-creation steps. -/
theorem c8_no_tag_is_fatal :
    find_latest_semver_tag ⟨none⟩ = .notFound ∧
    ∀ (force : Bool) (head : Option String) (k : BumpType),
      run_main force head ⟨none⟩ k = (.abortedBranch, []) ∨
      run_main force head ⟨none⟩ k = (.abortedNoTag, [.lookupTag]) := by
  constructor
  · rfl
  · intro force head k
    cases hb : (!force && !(on_master_branch head)) with
    | true => left; simp [run_main, hb]
    | false => right; simp [run_main, hb, find_latest_semver_tag]

/-- C9: whenever the split succeeds the major component is a single
decimal digit, the greedy prefix having absorbed all leading digits but
the last; in particular "12.3.4" parses as ("1", 2, 3, 4, ""). -/
theorem c9_major_single_digit :
    (∀ (s p : String) (a b c : Nat) (suf : String),
      split_tag_semver s = .found p a b c suf → a ≤ 9) ∧
    split_tag_semver "12.3.4" = .found "1" 2 3 4 "" :=
  ⟨fun s p a b c suf h => split_found_major_le s p a b c suf h, rfl⟩

/-- C9 witness: the major parsed out of "12.3.4" is bounded by 9. -/
theorem c9_major_single_digit_witness : (2 : Nat) ≤ 9 :=
  c9_major_single_digit.1 "12.3.4" "1" 2 3 4 "" c9_major_single_digit.2

/-- C10: without the force flag, on a branch that is neither master nor
main (or with unreadable HEAD), the program stops before any tag lookup,
bump or tag creation. -/
theorem c10_branch_guard (head : Option String) (repo : Repo) (k : BumpType)
    (h : on_master_branch head = false) :
    run_main false head repo k = (.abortedBranch, []) := by
  simp [run_main, h]

/-- C10 witness: on branch "develop" without force nothing runs. -/
theorem c10_branch_guard_witness :
    run_main false (some "develop") ⟨some "v1.2.3"⟩ .Patch = (.abortedBranch, []) :=
  c10_branch_guard (some "develop") ⟨some "v1.2.3"⟩ .Patch (by decide)

end SemverTaggr
